import Mathlib

/-!
Verification of the music-tag transformation engine: a shallow embedding of
MusicTagProcessor.preview_changes from src/main.py and src/tag_processor.py
together with the helper functions of src/utils.py, and proofs of the
specification claims about them.

Python strings are modelled as lists of characters, Python dicts as
association lists with insertion-order assignment semantics.
-/

namespace MusicTags

/-- A Python string, modelled as a list of characters. -/
abbrev Str := List Char

/-- A field mapping: a Python dict from field name to string value. -/
abbrev TagMap := List (String × Str)

/-- Python dict lookup d.get(k), as an Option. -/
def dget (m : TagMap) (k : String) : Option Str :=
  (m.find? (fun p => p.1 == k)).map (fun p => p.2)

/-- Python dict lookup with default: d.get(k, dflt). -/
def dgetD (m : TagMap) (k : String) (dflt : Str) : Str :=
  (dget m k).getD dflt

/-- Python dict assignment d[k] = v: overwrite the existing binding in place,
or append a fresh binding at the end. -/
def dset : TagMap → String → Str → TagMap
  | [], k, v => [(k, v)]
  | p :: rest, k, v => if p.1 = k then (k, v) :: rest else p :: dset rest k v

/-- Clamp a Python slice bound to a character offset of a string of length n:
negative bounds count from the end of the string. -/
def sliceIndex (n : Nat) (i : Int) : Nat :=
  if i < 0 then ((n : Int) + i).toNat else min i.toNat n

/-- Python str.replace for a non-empty search string: leftmost, non-overlapping
literal matches, each replaced by new. -/
def replaceAux (new old : Str) : Str → Str
  | [] => []
  | x :: xs =>
    if old.isPrefixOf (x :: xs) then new ++ replaceAux new old (xs.drop (old.length - 1))
    else x :: replaceAux new old xs
termination_by s => s.length
decreasing_by
  · simp only [List.length_cons]
    have := List.length_drop (old.length - 1) xs
    omega
  · simp

/-- Interleave helper for Python str.replace with an empty search string. -/
def interleave (new : Str) : Str → Str
  | [] => []
  | c :: cs => c :: (new ++ interleave new cs)

/-- Python s.replace(old, new). An empty old inserts new at every character
boundary, including both ends. -/
def pyReplace (s old new : Str) : Str :=
  match old with
  | [] => new ++ interleave new s
  | _ :: _ => replaceAux new old s

/-- The code points Python treats as whitespace; str.isspace and the regex
class backslash-s agree on this set in CPython. -/
def pyIsSpace (c : Char) : Bool :=
  ([9, 10, 11, 12, 13, 28, 29, 30, 31, 32, 0x85, 0xa0, 0x1680,
    0x2000, 0x2001, 0x2002, 0x2003, 0x2004, 0x2005, 0x2006, 0x2007, 0x2008,
    0x2009, 0x200a, 0x2028, 0x2029, 0x202f, 0x205f, 0x3000] : List Nat).contains c.toNat

/-- Remove leading whitespace. -/
def lstripWs (s : Str) : Str := s.dropWhile pyIsSpace

/-- Remove trailing whitespace. -/
def rstripWs : Str → Str
  | [] => []
  | x :: xs =>
    if rstripWs xs = [] then (if pyIsSpace x then [] else [x]) else x :: rstripWs xs

/-- Python str.strip(): remove leading and trailing whitespace. -/
def pyStrip (s : Str) : Str := rstripWs (lstripWs s)

/-- One-pass whitespace-run collapsing; the flag records whether the scan is
inside a run whose single replacement space was already emitted. -/
def collapseAux (inRun : Bool) : Str → Str
  | [] => []
  | x :: xs =>
    if pyIsSpace x then
      (if inRun then collapseAux true xs else ' ' :: collapseAux true xs)
    else x :: collapseAux false xs

/-- The regex substitution replacing each maximal whitespace run by one space. -/
def collapseWs (s : Str) : Str := collapseAux false s

/-- trim_spaces from src/utils.py. -/
def trim_spaces (text : Str) (trim_type : String) : Str :=
  let r1 := if trim_type = "both" ∨ trim_type = "all" then pyStrip text else text
  if trim_type = "duplicate" ∨ trim_type = "all" then collapseWs r1 else r1

/-- Scan for the closing bracket of a shortest regex match: the regex dot does
not match a newline, so the scan fails at the first newline seen before the
close character. Returns the remainder of the string after the close. -/
def findClose (c : Char) : Str → Option Str
  | [] => none
  | x :: xs => if x = c then some xs else if x = '\n' then none else findClose c xs

/-- One pass of re.sub removing every leftmost shortest open...close span
(the regex re.escape(open) + dot-star-question + re.escape(close) with empty
replacement). -/
def subPair (o c : Char) : Str → Str
  | [] => []
  | x :: xs =>
    if x = o then
      match h : findClose c xs with
      | some rest => subPair o c rest
      | none => x :: subPair o c xs
    else x :: subPair o c xs
termination_by s => s.length
decreasing_by
  · have key : ∀ (ys rest : Str), findClose c ys = some rest → rest.length < ys.length := by
      intro ys
      induction ys with
      | nil => intro rest hr; simp [findClose] at hr
      | cons y ys ih =>
        intro rest hr
        simp only [findClose] at hr
        split at hr
        · cases hr
          simp only [List.length_cons]
          omega
        · split at hr
          · exact Option.noConfusion hr
          · have := ih _ hr
            simp only [List.length_cons]
            omega
    have := key _ _ h
    simp only [List.length_cons]
    omega
  · simp
  · simp

/-- The loop body of remove_brackets_content: a pair of exactly two
characters is substituted away, anything else is skipped. -/
def bracketStep (result : Str) (bp : Str) : Str :=
  match bp with
  | [o, c] => subPair o c result
  | _ => result

/-- remove_brackets_content from src/utils.py: one re.sub pass per bracket
pair, in the order given; entries that are not two characters are skipped.
The same loop appears inline in the REMOVE_BRACKETS branch of both engines. -/
def remove_brackets_content (text : Str) (brackets : List Str) : Str :=
  brackets.foldl bracketStep text

/-- No newline occurs in the list. -/
def NlFree (l : Str) : Prop := ∀ y ∈ l, y ≠ '\n'

/-- The close character is reachable through newline-free text: the shape a
shortest-match scan can consume. -/
def Reach (c : Char) (s : Str) : Prop := ∃ m z, s = m ++ c :: z ∧ NlFree m

/-- The string contains a regex match of open dot-star-question close: an
open character, newline-free text, then the close character. -/
def HasMatch (o c : Char) (s : Str) : Prop :=
  ∃ a m z, s = a ++ o :: (m ++ c :: z) ∧ NlFree m

/-- t arises from s by deleting newline-free chunks; re.sub passes of bracket
pairs without a newline character perform exactly such deletions. -/
inductive Del : Str → Str → Prop where
  | nil : Del [] []
  | keep (x : Char) {s t : Str} : Del s t → Del (x :: s) (x :: t)
  | del (d : Str) {s t : Str} : NlFree d → Del s t → Del (d ++ s) t

/-- The chinese_punctuation literal, character for character as its bytes
appear in the source: it contains the ASCII double quote at indices 6, 9 and
10, and the curly single quotes at indices 7 and 8. -/
def chinese_punctuation : Str :=
  ['，', '。', '！', '？', '；', '：', '"', '‘', '’', '"', '"',
   '（', '）', '【', '】', '《', '》']

/-- The english_punctuation literal: apostrophe at index 6 and the ASCII
double quote at indices 7 to 10. -/
def english_punctuation : Str :=
  [',', '.', '!', '?', ';', ':', '\'', '"', '"', '"', '"',
   '(', ')', '[', ']', '<', '>']

/-- str.maketrans over two equal-length strings: position-wise pairs, where a
repeated source character is rebound, so the later pair wins. -/
def maketrans (src dst : Str) : List (Char × Char) := src.zip dst

/-- Table lookup with the later-pair-wins dict semantics of maketrans. -/
def transGet (table : List (Char × Char)) (c : Char) : Option Char :=
  (table.reverse.find? (fun p => p.1 == c)).map (fun p => p.2)

/-- str.translate over a character table; unmapped characters pass through. -/
def pyTranslate (table : List (Char × Char)) (s : Str) : Str :=
  s.map (fun c => (transGet table c).getD c)

/-- convert_punctuation from src/utils.py; the same tables are built inline in
the CONVERT_PUNCTUATION branch of both engines. -/
def convert_punctuation (text : Str) (to_english : Bool) : Str :=
  if to_english then pyTranslate (maketrans chinese_punctuation english_punctuation) text
  else pyTranslate (maketrans english_punctuation chinese_punctuation) text

/-- The OperationType enumeration. The two kinds whose source names end in
the word PREFIX are rendered here with the suffix FRONT. -/
inductive OperationType where
  | REPLACE
  | INSERT_TEXT_FRONT
  | INSERT_TEXT_SUFFIX
  | INSERT_FIELD_FRONT
  | INSERT_FIELD_SUFFIX
  | INSERT_FIELD_POSITION
  | DELETE_RANGE
  | INSERT_POSITION
  | REMOVE_BRACKETS
  | TRIM_SPACES
  | CONVERT_PUNCTUATION
  deriving DecidableEq

/-- The TagOperation dataclass of main.py, with its field defaults. The
tag_processor.py variant has no apply_to_all field; its engine below ignores it. -/
structure TagOperation where
  op_type : OperationType
  target_field : String
  source_field : String := ""
  text : Str := []
  old_text : Str := []
  new_text : Str := []
  position : Int := 0
  length : Int := 0
  brackets : List Str := []
  separator : Str := []
  apply_to_all : Bool := false

/-- The per-kind computation of new_value in main.py preview_changes: from the
current working value, the operation parameters, and the ORIGINAL mapping for
source-field reads. -/
def applyOperation (original_tags : TagMap) (op : TagOperation) (current_value : Str) : Str :=
  match op.op_type with
  | .REPLACE => pyReplace current_value op.old_text op.new_text
  | .INSERT_TEXT_FRONT => op.text ++ current_value
  | .INSERT_TEXT_SUFFIX => current_value ++ op.text
  | .INSERT_FIELD_FRONT =>
    let source_value := dgetD original_tags op.source_field []
    if source_value ≠ [] then
      if op.separator ≠ [] then source_value ++ op.separator ++ current_value
      else source_value ++ current_value
    else current_value
  | .INSERT_FIELD_SUFFIX =>
    let source_value := dgetD original_tags op.source_field []
    if source_value ≠ [] then
      if op.separator ≠ [] then current_value ++ op.separator ++ source_value
      else current_value ++ source_value
    else current_value
  | .INSERT_FIELD_POSITION =>
    let source_value := dgetD original_tags op.source_field []
    if source_value ≠ [] then
      if op.position ≤ (current_value.length : Int) then
        let i := sliceIndex current_value.length op.position
        if op.separator ≠ [] then
          current_value.take i ++ op.separator ++ source_value ++ current_value.drop i
        else current_value.take i ++ source_value ++ current_value.drop i
      else
        if op.separator ≠ [] then current_value ++ op.separator ++ source_value
        else current_value ++ source_value
    else current_value
  | .DELETE_RANGE =>
    if op.position < (current_value.length : Int) then
      let end_pos : Int := min (op.position + op.length) (current_value.length : Int)
      current_value.take (sliceIndex current_value.length op.position) ++
        current_value.drop (sliceIndex current_value.length end_pos)
    else current_value
  | .INSERT_POSITION =>
    if op.position ≤ (current_value.length : Int) then
      let i := sliceIndex current_value.length op.position
      current_value.take i ++ op.text ++ current_value.drop i
    else current_value ++ op.text
  | .REMOVE_BRACKETS => remove_brackets_content current_value op.brackets
  | .TRIM_SPACES =>
    let r1 :=
      if op.new_text = "两端空格".toList ∨ op.new_text = "全部".toList then pyStrip current_value
      else current_value
    if op.new_text = "重复空格".toList ∨ op.new_text = "全部".toList then collapseWs r1 else r1
  | .CONVERT_PUNCTUATION =>
    if op.new_text = "中文转英文".toList then
      pyTranslate (maketrans chinese_punctuation english_punctuation) current_value
    else if op.new_text = "英文转中文".toList then
      pyTranslate (maketrans english_punctuation chinese_punctuation) current_value
    else current_value

/-- Apply one operation to each of its target fields in order, threading the
working mapping. -/
def runFields (original_tags : TagMap) (op : TagOperation) : List String → TagMap → TagMap
  | [], m => m
  | f :: rest, m =>
    runFields original_tags op rest (dset m f (applyOperation original_tags op (dgetD m f [])))

/-- The body of the main.py engine loop for one operation: resolve the target
fields from the apply_to_all policy, then transform each. -/
def engineStep (original_tags : TagMap) (selected_fields : List String)
    (op : TagOperation) (m : TagMap) : TagMap :=
  let target_fields :=
    if op.apply_to_all then selected_fields
    else if op.target_field ∈ selected_fields then [op.target_field] else []
  runFields original_tags op target_fields m

/-- The main.py engine loop over the operation sequence. -/
def runOps (original_tags : TagMap) (selected_fields : List String) :
    List TagOperation → TagMap → TagMap
  | [], m => m
  | op :: rest, m =>
    runOps original_tags selected_fields rest (engineStep original_tags selected_fields op m)

/-- MusicTagProcessor.preview_changes from src/main.py: fold the operations
over a working copy of the original mapping. -/
def preview_changes (operations : List TagOperation) (original_tags : TagMap)
    (selected_fields : List String) : TagMap :=
  runOps original_tags selected_fields operations original_tags

/-- The per-kind computation of tag_processor.py: identical to main.py except
that the separator of the field-insertion kinds is concatenated
unconditionally instead of being guarded by a truthiness test. -/
def applyOperationTP (original_tags : TagMap) (op : TagOperation) (current_value : Str) : Str :=
  match op.op_type with
  | .REPLACE => pyReplace current_value op.old_text op.new_text
  | .INSERT_TEXT_FRONT => op.text ++ current_value
  | .INSERT_TEXT_SUFFIX => current_value ++ op.text
  | .INSERT_FIELD_FRONT =>
    let source_value := dgetD original_tags op.source_field []
    if source_value ≠ [] then source_value ++ op.separator ++ current_value
    else current_value
  | .INSERT_FIELD_SUFFIX =>
    let source_value := dgetD original_tags op.source_field []
    if source_value ≠ [] then current_value ++ op.separator ++ source_value
    else current_value
  | .INSERT_FIELD_POSITION =>
    let source_value := dgetD original_tags op.source_field []
    if source_value ≠ [] then
      if op.position ≤ (current_value.length : Int) then
        let i := sliceIndex current_value.length op.position
        current_value.take i ++ op.separator ++ source_value ++ current_value.drop i
      else current_value ++ op.separator ++ source_value
    else current_value
  | .DELETE_RANGE =>
    if op.position < (current_value.length : Int) then
      let end_pos : Int := min (op.position + op.length) (current_value.length : Int)
      current_value.take (sliceIndex current_value.length op.position) ++
        current_value.drop (sliceIndex current_value.length end_pos)
    else current_value
  | .INSERT_POSITION =>
    if op.position ≤ (current_value.length : Int) then
      let i := sliceIndex current_value.length op.position
      current_value.take i ++ op.text ++ current_value.drop i
    else current_value ++ op.text
  | .REMOVE_BRACKETS => remove_brackets_content current_value op.brackets
  | .TRIM_SPACES =>
    let r1 :=
      if op.new_text = "两端空格".toList ∨ op.new_text = "全部".toList then pyStrip current_value
      else current_value
    if op.new_text = "重复空格".toList ∨ op.new_text = "全部".toList then collapseWs r1 else r1
  | .CONVERT_PUNCTUATION =>
    if op.new_text = "中文转英文".toList then
      pyTranslate (maketrans chinese_punctuation english_punctuation) current_value
    else if op.new_text = "英文转中文".toList then
      pyTranslate (maketrans english_punctuation chinese_punctuation) current_value
    else current_value

/-- The tag_processor.py engine loop: no apply_to_all policy, an operation is
skipped unless its target field is among the selected fields. -/
def runOpsTP (original_tags : TagMap) (selected_fields : List String) :
    List TagOperation → TagMap → TagMap
  | [], m => m
  | op :: rest, m =>
    runOpsTP original_tags selected_fields rest
      (if op.target_field ∈ selected_fields then
        dset m op.target_field (applyOperationTP original_tags op (dgetD m op.target_field []))
      else m)

/-- MusicTagProcessor.preview_changes from src/tag_processor.py. -/
def preview_changes_tp (operations : List TagOperation) (original_tags : TagMap)
    (selected_fields : List String) : TagMap :=
  runOpsTP original_tags selected_fields operations original_tags

/-! ## Lemmas about the dict model -/

/-- Lookup on a cons cell of the association list. -/
theorem dget_cons (p : String × Str) (l : TagMap) (k : String) :
    dget (p :: l) k = if p.1 = k then some p.2 else dget l k := by
  by_cases h : p.1 = k
  · simp [dget, List.find?_cons, h]
  · simp [dget, List.find?_cons, h]

/-- Assignment followed by lookup at the same key. -/
theorem dget_dset_self (m : TagMap) (k : String) (v : Str) :
    dget (dset m k v) k = some v := by
  induction m with
  | nil => simp [dset, dget_cons]
  | cons p rest ih =>
    by_cases h : p.1 = k
    · simp [dset, h, dget_cons]
    · simp [dset, h, dget_cons, ih]

/-- Assignment followed by lookup at a different key. -/
theorem dget_dset_ne (m : TagMap) (k k' : String) (v : Str) (h : k' ≠ k) :
    dget (dset m k v) k' = dget m k' := by
  induction m with
  | nil => simp [dset, dget_cons, dget, Ne.symm h]
  | cons p rest ih =>
    by_cases hp : p.1 = k
    · simp [dset, hp, dget_cons, Ne.symm h]
    · simp [dset, hp, dget_cons, ih]

/-- Assignment can only add the assigned key to the domain. -/
theorem dget_dset_isSome (m : TagMap) (k k' : String) (v : Str) :
    (dget (dset m k v) k').isSome ↔ k' = k ∨ (dget m k').isSome := by
  by_cases h : k' = k
  · subst h; simp [dget_dset_self]
  · simp [dget_dset_ne m k k' v h, h]

/-! ## Frame and domain lemmas about the main.py engine -/

/-- Fields outside the target list are untouched by one operation pass. -/
theorem dget_runFields_not_mem (orig : TagMap) (op : TagOperation) :
    ∀ (fs : List String) (m : TagMap) (f : String), f ∉ fs →
      dget (runFields orig op fs m) f = dget m f := by
  intro fs
  induction fs with
  | nil => intro m f _; rfl
  | cons g rest ih =>
    intro m f hf
    simp only [List.mem_cons, not_or] at hf
    simp only [runFields]
    rw [ih _ _ hf.2, dget_dset_ne _ _ _ _ hf.1]

/-- Keys present in the working mapping stay present across one operation. -/
theorem dget_runFields_isSome_mono (orig : TagMap) (op : TagOperation) :
    ∀ (fs : List String) (m : TagMap) (k : String),
      (dget m k).isSome → (dget (runFields orig op fs m) k).isSome := by
  intro fs
  induction fs with
  | nil => intro m k h; exact h
  | cons g rest ih =>
    intro m k h
    exact ih _ _ ((dget_dset_isSome m g k _).2 (Or.inr h))

/-- Keys of the result of one operation come from the working mapping or from
the target list. -/
theorem dget_runFields_isSome (orig : TagMap) (op : TagOperation) :
    ∀ (fs : List String) (m : TagMap) (k : String),
      (dget (runFields orig op fs m) k).isSome → (dget m k).isSome ∨ k ∈ fs := by
  intro fs
  induction fs with
  | nil => intro m k h; exact Or.inl h
  | cons g rest ih =>
    intro m k h
    rcases ih _ _ h with h' | h'
    · rcases (dget_dset_isSome m g k _).1 h' with rfl | h''
      · exact Or.inr (List.mem_cons_self _ _)
      · exact Or.inl h''
    · exact Or.inr (List.mem_cons_of_mem _ h')

/-- A field that one operation does not target keeps its value. -/
theorem dget_engineStep_not_targeted (orig : TagMap) (sel : List String)
    (op : TagOperation) (m : TagMap) (f : String)
    (h : f ∉ sel ∨ (op.apply_to_all = false ∧ op.target_field ≠ f)) :
    dget (engineStep orig sel op m) f = dget m f := by
  simp only [engineStep]
  apply dget_runFields_not_mem
  rcases h with h | ⟨h1, h2⟩
  · split
    · exact h
    · split
      · simp only [List.mem_singleton]
        rintro rfl
        exact h (by assumption)
      · simp
  · simp only [h1, Bool.false_eq_true, if_false]
    split
    · simp only [List.mem_singleton]
      intro hh
      exact h2 hh.symm
    · simp

/-- Working-mapping keys survive one engine step. -/
theorem dget_engineStep_isSome_mono (orig : TagMap) (sel : List String)
    (op : TagOperation) (m : TagMap) (k : String)
    (h : (dget m k).isSome) : (dget (engineStep orig sel op m) k).isSome :=
  dget_runFields_isSome_mono orig op _ m k h

/-- Keys after one engine step come from the working mapping or the selection. -/
theorem dget_engineStep_isSome (orig : TagMap) (sel : List String)
    (op : TagOperation) (m : TagMap) (k : String)
    (h : (dget (engineStep orig sel op m) k).isSome) :
    (dget m k).isSome ∨ k ∈ sel := by
  simp only [engineStep] at h
  rcases dget_runFields_isSome orig op _ m k h with h' | h'
  · exact Or.inl h'
  · right
    revert h'
    split
    · exact id
    · split
      · simp only [List.mem_singleton]
        rintro rfl
        assumption
      · simp

/-- A field no operation of the sequence targets keeps its working value. -/
theorem dget_runOps_not_targeted (orig : TagMap) (sel : List String) :
    ∀ (ops : List TagOperation) (m : TagMap) (f : String),
      (f ∉ sel ∨ ∀ op ∈ ops, op.apply_to_all = false ∧ op.target_field ≠ f) →
      dget (runOps orig sel ops m) f = dget m f := by
  intro ops
  induction ops with
  | nil => intro m f _; rfl
  | cons op rest ih =>
    intro m f h
    simp only [runOps]
    have hrest : f ∉ sel ∨ ∀ o ∈ rest, o.apply_to_all = false ∧ o.target_field ≠ f := by
      rcases h with h | h
      · exact Or.inl h
      · exact Or.inr fun o ho => h o (List.mem_cons_of_mem _ ho)
    have hop : f ∉ sel ∨ (op.apply_to_all = false ∧ op.target_field ≠ f) := by
      rcases h with h | h
      · exact Or.inl h
      · exact Or.inr (h op (List.mem_cons_self _ _))
    rw [ih _ _ hrest, dget_engineStep_not_targeted orig sel op m f hop]

/-- Working-mapping keys survive the whole engine loop. -/
theorem dget_runOps_isSome_mono (orig : TagMap) (sel : List String) :
    ∀ (ops : List TagOperation) (m : TagMap) (k : String),
      (dget m k).isSome → (dget (runOps orig sel ops m) k).isSome := by
  intro ops
  induction ops with
  | nil => intro m k h; exact h
  | cons op rest ih =>
    intro m k h
    exact ih _ _ (dget_engineStep_isSome_mono orig sel op m k h)

/-- Keys after the whole engine loop come from the working mapping or from the
selection. -/
theorem dget_runOps_isSome (orig : TagMap) (sel : List String) :
    ∀ (ops : List TagOperation) (m : TagMap) (k : String),
      (dget (runOps orig sel ops m) k).isSome → (dget m k).isSome ∨ k ∈ sel := by
  intro ops
  induction ops with
  | nil => intro m k h; exact Or.inl h
  | cons op rest ih =>
    intro m k h
    rcases ih _ _ h with h' | h'
    · exact dget_engineStep_isSome orig sel op m k h'
    · exact Or.inr h'

/-- Appending one operation to the sequence runs it last on the fold state. -/
theorem runOps_append (orig : TagMap) (sel : List String) :
    ∀ (l1 l2 : List TagOperation) (m : TagMap),
      runOps orig sel (l1 ++ l2) m = runOps orig sel l2 (runOps orig sel l1 m) := by
  intro l1
  induction l1 with
  | nil => intro l2 m; rfl
  | cons op rest ih =>
    intro l2 m
    simp only [List.cons_append, runOps]
    exact ih l2 _

/-- The two per-kind transformations agree on every operation: the only
textual difference is the truthiness guard on the separator, and an empty
separator concatenates to nothing. -/
theorem applyOperation_eq_tp (orig : TagMap) (op : TagOperation) (cur : Str) :
    applyOperation orig op cur = applyOperationTP orig op cur := by
  cases h : op.op_type <;> simp only [applyOperation, applyOperationTP, h]
  case INSERT_FIELD_FRONT =>
    by_cases hs : dgetD orig op.source_field [] = []
    · simp [hs]
    · by_cases hsep : op.separator = [] <;> simp [hs, hsep]
  case INSERT_FIELD_SUFFIX =>
    by_cases hs : dgetD orig op.source_field [] = []
    · simp [hs]
    · by_cases hsep : op.separator = [] <;> simp [hs, hsep]
  case INSERT_FIELD_POSITION =>
    by_cases hs : dgetD orig op.source_field [] = []
    · simp [hs]
    · by_cases hsep : op.separator = [] <;> simp [hs, hsep]

/-! ## Claim theorems C1, C3, C6, C10 -/

/-- C1: cross-field reads use the original mapping. The first three conjuncts
state that appending an INSERT_FIELD_SUFFIX, INSERT_FIELD_PREFIX (FRONT) or
INSERT_FIELD_POSITION operation to ANY preceding sequence combines the
working value of the target with the ORIGINAL value of the source field,
never with the working value mutated by the earlier operations. The last
conjunct is the concrete two-operation scenario of the claim, where the
working TITLE is already "bar" when op 2 reads the original TITLE "foo",
giving "bar/foo". -/
theorem claim_C1 :
    (∀ (original : TagMap) (sel : List String) (ops : List TagOperation)
        (tgt src : String) (sep : Str),
        tgt ∈ sel → dgetD original src [] ≠ [] → sep ≠ [] →
        preview_changes (ops ++ [{ op_type := .INSERT_FIELD_SUFFIX, target_field := tgt, source_field := src, separator := sep }]) original sel =
          dset (preview_changes ops original sel) tgt
            (dgetD (preview_changes ops original sel) tgt [] ++ sep ++ dgetD original src [])) ∧
    (∀ (original : TagMap) (sel : List String) (ops : List TagOperation)
        (tgt src : String) (sep : Str),
        tgt ∈ sel → dgetD original src [] ≠ [] → sep ≠ [] →
        preview_changes (ops ++ [{ op_type := .INSERT_FIELD_FRONT, target_field := tgt, source_field := src, separator := sep }]) original sel =
          dset (preview_changes ops original sel) tgt
            (dgetD original src [] ++ sep ++ dgetD (preview_changes ops original sel) tgt [])) ∧
    (∀ (original : TagMap) (sel : List String) (ops : List TagOperation)
        (tgt src : String) (sep : Str),
        tgt ∈ sel → dgetD original src [] ≠ [] → sep ≠ [] →
        preview_changes (ops ++ [{ op_type := .INSERT_FIELD_POSITION, target_field := tgt, source_field := src, separator := sep, position := 0 }]) original sel =
          dset (preview_changes ops original sel) tgt
            (sep ++ dgetD original src [] ++ dgetD (preview_changes ops original sel) tgt [])) ∧
    preview_changes
        [{ op_type := .REPLACE, target_field := "TITLE", old_text := ['f','o','o'], new_text := ['b','a','r'] },
         { op_type := .INSERT_FIELD_SUFFIX, target_field := "TITLE", source_field := "TITLE", separator := ['/'] }]
        [("TITLE", ['f','o','o'])] ["TITLE"] =
      [("TITLE", ['b','a','r','/','f','o','o'])] := by
  refine ⟨?_, ?_, ?_, ?_⟩
  · intro original sel ops tgt src sep htgt hsrc hsep
    simp only [preview_changes, runOps_append, runOps, engineStep, if_neg Bool.false_ne_true,
      if_pos htgt, runFields, applyOperation, hsrc, hsep]
    simp [hsrc, hsep]
  · intro original sel ops tgt src sep htgt hsrc hsep
    simp only [preview_changes, runOps_append, runOps, engineStep, if_neg Bool.false_ne_true,
      if_pos htgt, runFields, applyOperation, hsrc, hsep]
    simp [hsrc, hsep]
  · intro original sel ops tgt src sep htgt hsrc hsep
    simp only [preview_changes, runOps_append, runOps, engineStep, if_neg Bool.false_ne_true,
      if_pos htgt, runFields, applyOperation, hsrc, hsep]
    have hpos : (0 : Int) ≤ ((dgetD (runOps original sel ops original) tgt []).length : Int) := by
      omega
    simp [hsrc, hsep, hpos, sliceIndex]
  · simp [preview_changes, runOps, engineStep, runFields, applyOperation, dget, dgetD, dset,
      pyReplace, replaceAux]

/-- Witness for C1: the general conjunct applied to a concrete input. -/
theorem claim_C1_witness :
    preview_changes [{ op_type := .INSERT_FIELD_SUFFIX, target_field := "B", source_field := "A", separator := ['-'] }]
      [("A", ['x']), ("B", ['y'])] ["B"] =
      dset (preview_changes [] [("A", ['x']), ("B", ['y'])] ["B"]) "B"
        (dgetD (preview_changes [] [("A", ['x']), ("B", ['y'])] ["B"]) "B" [] ++ ['-'] ++
          dgetD [("A", ['x']), ("B", ['y'])] "A" []) := by
  exact claim_C1.1 [("A", ['x']), ("B", ['y'])] ["B"] [] "B" "A" ['-']
    (by decide) (by decide) (by decide)

/-- C3 counterexample: a selected target field absent from the input mapping
is ADDED to the mapping by the engine, so the key domain is not preserved. -/
theorem claim_C3_counterexample :
    dget (preview_changes [{ op_type := .INSERT_TEXT_FRONT, target_field := "X", text := ['a'] }] [] ["X"]) "X" = some ['a'] ∧
    dget ([] : TagMap) "X" = none := by
  constructor
  · decide
  · rfl

/-- C3 amended: the engine never removes a key, and every key of the output is
either a key of the input or a member of the selected-field list (keys can be
introduced exactly for targeted selected fields absent from the input). -/
theorem claim_C3 :
    ∀ (original : TagMap) (sel : List String) (ops : List TagOperation) (k : String),
      ((dget original k).isSome → (dget (preview_changes ops original sel) k).isSome) ∧
      ((dget (preview_changes ops original sel) k).isSome →
        (dget original k).isSome ∨ k ∈ sel) := by
  intro original sel ops k
  constructor
  · intro h
    exact dget_runOps_isSome_mono original sel ops original k h
  · intro h
    exact dget_runOps_isSome original sel ops original k h

/-- Witness for C3: both conjuncts applied at a concrete input. -/
theorem claim_C3_witness :
    (dget (preview_changes [{ op_type := .INSERT_TEXT_SUFFIX, target_field := "A", text := ['!'] }] [("A", ['x'])] ["A"]) "A").isSome ∧
    ((dget [("A", ['x'])] "A").isSome ∨ "A" ∈ ["A"]) := by
  refine ⟨?_, ?_⟩
  · exact (claim_C3 [("A", ['x'])] ["A"]
      [{ op_type := .INSERT_TEXT_SUFFIX, target_field := "A", text := ['!'] }] "A").1 (by decide)
  · exact (claim_C3 [("A", ['x'])] ["A"]
      [{ op_type := .INSERT_TEXT_SUFFIX, target_field := "A", text := ['!'] }] "A").2 (by decide)

/-- C6: a field not targeted by any operation (not selected, or every
operation has apply_to_all false and a different target) keeps its input
value. -/
theorem claim_C6 (original : TagMap) (sel : List String) (ops : List TagOperation) (f : String)
    (h : f ∉ sel ∨ ∀ op ∈ ops, op.apply_to_all = false ∧ op.target_field ≠ f) :
    dget (preview_changes ops original sel) f = dget original f :=
  dget_runOps_not_targeted original sel ops original f h

/-- Witness for C6: a non-selected field is untouched by a concrete run. -/
theorem claim_C6_witness :
    dget (preview_changes [{ op_type := .INSERT_TEXT_FRONT, target_field := "B", text := ['z'] }] [("A", ['x']), ("B", ['y'])] ["B"]) "A" =
      dget [("A", ['x']), ("B", ['y'])] "A" := by
  exact claim_C6 [("A", ['x']), ("B", ['y'])] ["B"]
    [{ op_type := .INSERT_TEXT_FRONT, target_field := "B", text := ['z'] }] "A"
    (Or.inl (by decide))

/-- C10: with apply_to_all unused, the main.py engine and the tag_processor.py
engine compute the same output mapping. -/
theorem claim_C10 (ops : List TagOperation) (original : TagMap) (sel : List String)
    (h : ∀ op ∈ ops, op.apply_to_all = false) :
    preview_changes ops original sel = preview_changes_tp ops original sel := by
  suffices key : ∀ (l : List TagOperation) (m : TagMap), (∀ op ∈ l, op.apply_to_all = false) →
      runOps original sel l m = runOpsTP original sel l m by
    exact key ops original h
  intro l
  induction l with
  | nil => intro m _; rfl
  | cons op rest ih =>
    intro m hl
    have hop : op.apply_to_all = false := hl op (List.mem_cons_self _ _)
    have hrest : ∀ o ∈ rest, o.apply_to_all = false :=
      fun o ho => hl o (List.mem_cons_of_mem _ ho)
    simp only [runOps, runOpsTP, engineStep, hop, Bool.false_eq_true, if_false]
    rw [ih _ hrest]
    congr 1
    split
    · simp only [runFields, applyOperation_eq_tp]
    · rfl

/-! ## Claim theorems C2, C5, C9: per-kind string semantics -/

/-- Interleaving an empty replacement string is the identity. -/
theorem interleave_nil (s : Str) : interleave [] s = s := by
  induction s with
  | nil => rfl
  | cons c cs ih => simp [interleave, ih]

/-- C2 counterexample: the engine does not special-case an empty old_text as
the identity; on the value "a" a REPLACE of "" by "b" produces "bab". -/
theorem claim_C2_counterexample :
    preview_changes [{ op_type := .REPLACE, target_field := "T", old_text := [], new_text := ['b'] }] [("T", ['a'])] ["T"] = [("T", ['b', 'a', 'b'])] ∧
    (['b', 'a', 'b'] : Str) ≠ ['a'] := by
  exact ⟨by decide, by decide⟩

/-- C2 amended: a REPLACE whose old_text is empty follows the Python
str.replace semantics, inserting new_text at every character boundary
including both ends; it leaves the field value unchanged exactly when
new_text is empty as well. -/
theorem claim_C2 (original : TagMap) (op : TagOperation) (cur : Str)
    (h1 : op.op_type = .REPLACE) (h2 : op.old_text = []) :
    applyOperation original op cur = op.new_text ++ interleave op.new_text cur ∧
    (op.new_text = [] → applyOperation original op cur = cur) := by
  constructor
  · simp [applyOperation, h1, pyReplace, h2]
  · intro h3
    simp [applyOperation, h1, pyReplace, h2, h3, interleave_nil]

/-- Witness for C2: the amended characterization at a concrete input. -/
theorem claim_C2_witness :
    applyOperation [] { op_type := .REPLACE, target_field := "T", old_text := ([] : Str), new_text := ['b'] } ['a'] = ['b'] ++ interleave ['b'] ['a'] := by
  exact (claim_C2 [] { op_type := .REPLACE, target_field := "T", old_text := ([] : Str), new_text := ['b'] } ['a'] rfl rfl).1

/-- C5 counterexample: INSERT_FIELD_POSITION with position -1 on the value
"ab" and source value "X" splices before the last character, giving "aXb",
not "Xab" as insertion at offset 0 would. -/
theorem claim_C5_counterexample :
    applyOperation [("S", ['X'])] { op_type := .INSERT_FIELD_POSITION, target_field := "T", source_field := "S", position := -1 } ['a', 'b'] = ['a', 'X', 'b'] ∧
    (['a', 'X', 'b'] : Str) ≠ ['X'] ++ ['a', 'b'] := by
  exact ⟨by decide, by decide⟩

/-- C5 amended: for a non-empty source value the insertion offset is a Python
slice index clamped to the range from 0 to the current length: a position
above the length appends at the end, a non-negative position within range
splices there, and a negative position p splices at max(0, length + p); the
operation is total, so no position can raise. -/
theorem claim_C5 (original : TagMap) (op : TagOperation) (cur : Str)
    (h1 : op.op_type = .INSERT_FIELD_POSITION)
    (h2 : dgetD original op.source_field [] ≠ []) :
    ∃ i : Nat, i ≤ cur.length ∧
      (i : Int) = max 0 (if (cur.length : Int) < op.position then (cur.length : Int)
          else if op.position < 0 then (cur.length : Int) + op.position else op.position) ∧
      applyOperation original op cur =
        cur.take i ++ (if op.separator = [] then dgetD original op.source_field []
                       else op.separator ++ dgetD original op.source_field []) ++ cur.drop i := by
  by_cases hp : op.position ≤ (cur.length : Int)
  · refine ⟨sliceIndex cur.length op.position, ?_, ?_, ?_⟩
    · simp only [sliceIndex]
      split <;> omega
    · simp only [sliceIndex]
      split <;> split <;> omega
    · simp only [applyOperation, h1, if_pos h2, if_pos hp]
      by_cases hsep : op.separator = []
      · simp [hsep]
      · simp [hsep, List.append_assoc]
  · refine ⟨cur.length, le_refl _, by omega, ?_⟩
    simp only [applyOperation, h1, if_pos h2, if_neg hp]
    by_cases hsep : op.separator = []
    · simp [hsep]
    · simp [hsep, List.append_assoc]

/-- Witness for C5: the amended characterization at a concrete input with an
out-of-range position. -/
theorem claim_C5_witness :
    ∃ i : Nat, i ≤ (['a'] : Str).length ∧
      (i : Int) = max 0 (if ((['a'] : Str).length : Int) < (5 : Int) then ((['a'] : Str).length : Int)
          else if (5 : Int) < 0 then ((['a'] : Str).length : Int) + 5 else 5) ∧
      applyOperation [("S", ['X'])] { op_type := .INSERT_FIELD_POSITION, target_field := "T", source_field := "S", position := 5 } ['a'] =
        (['a'] : Str).take i ++ (if ([] : Str) = [] then dgetD [("S", ['X'])] "S" []
                       else ([] : Str) ++ dgetD [("S", ['X'])] "S" []) ++ (['a'] : Str).drop i := by
  exact claim_C5 [("S", ['X'])] { op_type := .INSERT_FIELD_POSITION, target_field := "T", source_field := "S", position := 5 } ['a'] rfl (by decide)

/-- Coercion evaluation for slice indices at non-negative positions. -/
theorem sliceIndex_coe (n k : Nat) : sliceIndex n (k : Int) = min k n := by
  simp [sliceIndex]

/-- C9: DELETE_RANGE at non-negative position p and length l, followed by
INSERT_POSITION at p of exactly the removed substring, restores the original
string. -/
theorem claim_C9 (s : Str) (p l : Nat) :
    applyOperation [] { op_type := .INSERT_POSITION, target_field := "T", text := (s.take (p + l)).drop p, position := (p : Int) }
      (applyOperation [] { op_type := .DELETE_RANGE, target_field := "T", position := (p : Int), length := (l : Int) } s) = s := by
  by_cases hp : p < s.length
  · have hcond : ((p : Int) < (s.length : Int)) := by exact_mod_cast hp
    have hmin : min ((p : Int) + (l : Int)) ((s.length : Int)) = ((min (p + l) s.length : Nat) : Int) := by
      push_cast
      rfl
    set e := min (p + l) s.length with he
    have hpe2 : p ≤ e := by omega
    have hee : e ≤ s.length := by omega
    have h1 : sliceIndex s.length ((p : Nat) : Int) = p := by
      rw [sliceIndex_coe]
      omega
    have h2 : sliceIndex s.length ((e : Nat) : Int) = e := by
      rw [sliceIndex_coe]
      omega
    simp only [applyOperation, if_pos hcond, hmin, h1, h2]
    have hlt : (s.take p).length = p := by
      simp only [List.length_take]
      omega
    have hld : (s.take p ++ s.drop e).length = p + (s.length - e) := by
      simp only [List.length_append, List.length_take, List.length_drop]
      omega
    have hcond2 : ((p : Int) ≤ ((s.take p ++ s.drop e).length : Int)) := by
      rw [hld]
      push_cast
      omega
    have h3 : sliceIndex (s.take p ++ s.drop e).length ((p : Nat) : Int) = p := by
      rw [sliceIndex_coe, hld]
      omega
    simp only [if_pos hcond2, h3]
    have htke : s.take (p + l) = s.take e := by
      rw [he]
      rcases Nat.le_total (p + l) s.length with hc | hc
      · rw [min_eq_left hc]
      · rw [min_eq_right hc, List.take_of_length_le hc, List.take_length]
    have htl : (s.take p ++ s.drop e).take p = s.take p := by
      have haux := List.take_left (s.take p) (s.drop e)
      rwa [hlt] at haux
    have hdl : (s.take p ++ s.drop e).drop p = s.drop e := by
      have haux := List.drop_left (s.take p) (s.drop e)
      rwa [hlt] at haux
    rw [htl, hdl, htke]
    have hth : s.take p = (s.take e).take p := by
      rw [List.take_take, min_eq_left hpe2]
    rw [hth, List.take_append_drop, List.take_append_drop]
  · have hcond : ¬ ((p : Int) < (s.length : Int)) := by omega
    have hsp : s.length ≤ p := by omega
    have htext : (s.take (p + l)).drop p = [] := by
      apply List.drop_eq_nil_of_le
      simp only [List.length_take]
      omega
    simp only [applyOperation, if_neg hcond, htext]
    by_cases hq : (p : Int) ≤ (s.length : Int)
    · have hpl : p = s.length := by
        have hple : p ≤ s.length := by exact_mod_cast hq
        omega
      have h4 : sliceIndex s.length ((p : Nat) : Int) = s.length := by
        rw [sliceIndex_coe]
        omega
      simp [if_pos hq, h4]
    · simp [if_neg hq]

/-! ## Whitespace lemmas for C7 -/

/-- Unfolding collapseAux on a whitespace head. -/
theorem collapseAux_cons_ws (b : Bool) (x : Char) (xs : Str) (hx : pyIsSpace x = true) :
    collapseAux b (x :: xs) = (if b then [] else [' ']) ++ collapseAux true xs := by
  cases b <;> simp [collapseAux, hx]

/-- Unfolding collapseAux on a non-whitespace head. -/
theorem collapseAux_cons_not_ws (b : Bool) (x : Char) (xs : Str) (hx : pyIsSpace x = false) :
    collapseAux b (x :: xs) = x :: collapseAux false xs := by
  cases b <;> simp [collapseAux, hx]

/-- Unfolding rstripWs on a cons cell. -/
theorem rstripWs_cons (x : Char) (xs : Str) :
    rstripWs (x :: xs) =
      if rstripWs xs = [] then (if pyIsSpace x then [] else [x]) else x :: rstripWs xs := rfl

/-- Stripping from the left commutes with collapsing runs, for either flag. -/
theorem dropWhile_collapseAux : ∀ (b : Bool) (s : Str),
    (collapseAux b s).dropWhile pyIsSpace = collapseWs (s.dropWhile pyIsSpace) := by
  intro b s
  induction s generalizing b with
  | nil => cases b <;> rfl
  | cons x xs ih =>
    by_cases hx : pyIsSpace x
    · rw [collapseAux_cons_ws b x xs hx]
      have hdw : (x :: xs).dropWhile pyIsSpace = xs.dropWhile pyIsSpace := by
        simp [List.dropWhile_cons, hx]
      rw [hdw, ← ih true]
      cases b
      · simp [List.dropWhile_cons, (by decide : pyIsSpace ' ' = true)]
      · simp
    · have hx' : pyIsSpace x = false := by simpa using hx
      rw [collapseAux_cons_not_ws b x xs hx']
      have hdw : (x :: xs).dropWhile pyIsSpace = x :: xs := by
        simp [List.dropWhile_cons, hx']
      rw [hdw, collapseWs, collapseAux_cons_not_ws false x xs hx']
      simp [List.dropWhile_cons, hx']

/-- The right strip erases everything exactly on all-whitespace strings. -/
theorem rstripWs_eq_nil_iff : ∀ s : Str, rstripWs s = [] ↔ ∀ y ∈ s, pyIsSpace y = true := by
  intro s
  induction s with
  | nil => simp [rstripWs]
  | cons x xs ih =>
    rw [rstripWs_cons]
    by_cases h : rstripWs xs = []
    · have hxs := ih.mp h
      by_cases hx : pyIsSpace x
      · constructor
        · intro _ y hy
          rcases List.mem_cons.mp hy with rfl | hy'
          · exact hx
          · exact hxs y hy'
        · intro _
          simp [h, hx]
      · constructor
        · intro habs
          rw [if_pos h] at habs
          simp [hx] at habs
        · intro hall
          exact absurd (hall x (List.mem_cons_self _ _)) (by simpa using hx)
    · constructor
      · intro habs
        rw [if_neg h] at habs
        exact List.noConfusion habs
      · intro hall
        exact absurd (ih.mpr fun y hy => hall y (List.mem_cons_of_mem _ hy)) h

/-- Collapsing an all-whitespace string inside a run produces nothing. -/
theorem collapseAux_true_all_ws : ∀ s : Str, (∀ y ∈ s, pyIsSpace y = true) →
    collapseAux true s = [] := by
  intro s
  induction s with
  | nil => intro _; rfl
  | cons x xs ih =>
    intro h
    rw [collapseAux_cons_ws true x xs (h x (List.mem_cons_self _ _))]
    simp [ih fun y hy => h y (List.mem_cons_of_mem _ hy)]

/-- Collapsing outside a run never erases a non-empty string. -/
theorem collapseAux_false_ne_nil : ∀ s : Str, s ≠ [] → collapseAux false s ≠ [] := by
  intro s hs
  cases s with
  | nil => exact absurd rfl hs
  | cons x xs =>
    by_cases hx : pyIsSpace x
    · rw [collapseAux_cons_ws false x xs hx]
      simp
    · rw [collapseAux_cons_not_ws false x xs (by simpa using hx)]
      simp

/-- A string with a non-whitespace character never collapses to nothing. -/
theorem collapseAux_ne_nil_of_not_ws : ∀ (b : Bool) (s : Str),
    (∃ y ∈ s, pyIsSpace y = false) → collapseAux b s ≠ [] := by
  intro b s
  induction s generalizing b with
  | nil =>
    rintro ⟨y, hy, _⟩
    simp at hy
  | cons x xs ih =>
    rintro ⟨y, hy, hyw⟩
    by_cases hx : pyIsSpace x
    · rw [collapseAux_cons_ws b x xs hx]
      have hxy : y ∈ xs := by
        rcases List.mem_cons.mp hy with rfl | h
        · rw [hx] at hyw
          exact Bool.noConfusion hyw
        · exact h
      have hne := ih true ⟨y, hxy, hyw⟩
      cases b
      · simp
      · simpa using hne
    · rw [collapseAux_cons_not_ws b x xs (by simpa using hx)]
      simp

/-- A non-erased right strip always keeps a non-whitespace character. -/
theorem rstripWs_has_not_ws : ∀ s : Str, rstripWs s ≠ [] →
    ∃ y ∈ rstripWs s, pyIsSpace y = false := by
  intro s
  induction s with
  | nil => intro h; exact absurd rfl h
  | cons x xs ih =>
    intro h
    rw [rstripWs_cons] at h ⊢
    by_cases hxs : rstripWs xs = []
    · rw [if_pos hxs] at h ⊢
      by_cases hx : pyIsSpace x
      · simp [hx] at h
      · have hx' : pyIsSpace x = false := by simpa using hx
        rw [if_neg (by simp [hx'])]
        exact ⟨x, List.mem_singleton_self _, hx'⟩
    · rw [if_neg hxs] at h ⊢
      obtain ⟨y, hy, hyw⟩ := ih hxs
      exact ⟨y, List.mem_cons_of_mem _ hy, hyw⟩

/-- Stripping from the right commutes with collapsing runs, for either flag. -/
theorem rstripWs_collapseAux : ∀ (s : Str) (b : Bool),
    rstripWs (collapseAux b s) = collapseAux b (rstripWs s) := by
  intro s
  induction s with
  | nil => intro b; rfl
  | cons x xs ih =>
    intro b
    by_cases hx : pyIsSpace x
    · rw [collapseAux_cons_ws b x xs hx]
      by_cases hxs : rstripWs xs = []
      · have hall := (rstripWs_eq_nil_iff xs).mp hxs
        have hc : collapseAux true xs = [] := collapseAux_true_all_ws xs hall
        have hr : rstripWs (x :: xs) = [] := by
          rw [rstripWs_cons]
          simp [hxs, hx]
        rw [hc, hr]
        cases b
        · simp only [List.append_nil]
          decide
        · rfl
      · have hr : rstripWs (x :: xs) = x :: rstripWs xs := by
          rw [rstripWs_cons, if_neg hxs]
        rw [hr, collapseAux_cons_ws b x (rstripWs xs) hx]
        have hne : collapseAux true (rstripWs xs) ≠ [] :=
          collapseAux_ne_nil_of_not_ws true (rstripWs xs) (rstripWs_has_not_ws xs hxs)
        cases b
        · have hstep : rstripWs (' ' :: collapseAux true xs) =
              ' ' :: collapseAux true (rstripWs xs) := by
            rw [rstripWs_cons, ih true]
            simp [hne]
          simpa using hstep
        · simpa using ih true
    · have hx' : pyIsSpace x = false := by simpa using hx
      rw [collapseAux_cons_not_ws b x xs hx']
      by_cases hxs : rstripWs xs = []
      · have hr : rstripWs (x :: xs) = [x] := by
          rw [rstripWs_cons]
          simp [hxs, hx']
        have hL : rstripWs (collapseAux false xs) = [] := by
          rw [ih false, hxs]
          rfl
        rw [hr, rstripWs_cons, hL, collapseAux_cons_not_ws b x [] hx']
        simp [hx', collapseAux]
      · have hr : rstripWs (x :: xs) = x :: rstripWs xs := by
          rw [rstripWs_cons, if_neg hxs]
        have hne : collapseAux false (rstripWs xs) ≠ [] := collapseAux_false_ne_nil _ hxs
        rw [hr, collapseAux_cons_not_ws b x (rstripWs xs) hx', rstripWs_cons, ih false]
        simp [hne]

/-- Stripping both ends commutes with collapsing whitespace runs. -/
theorem collapseWs_pyStrip (s : Str) : collapseWs (pyStrip s) = pyStrip (collapseWs s) := by
  have h1 : collapseWs (rstripWs (lstripWs s)) = rstripWs (collapseWs (lstripWs s)) :=
    (rstripWs_collapseAux (lstripWs s) false).symm
  have h2 : lstripWs (collapseWs s) = collapseWs (lstripWs s) := by
    simpa [lstripWs, collapseWs] using dropWhile_collapseAux false s
  show collapseWs (rstripWs (lstripWs s)) = rstripWs (lstripWs (collapseWs s))
  rw [h1, h2]

/-- C7: TRIM_SPACES in the all sub-mode strips both edges and collapses every
whitespace run; the code collapses after stripping, and the result equals
stripping after collapsing; on the concrete input of the claim it gives
"a b". -/
theorem claim_C7 :
    (∀ s : Str, trim_spaces s "all" = collapseWs (pyStrip s)) ∧
    (∀ s : Str, trim_spaces s "all" = pyStrip (collapseWs s)) ∧
    trim_spaces ("  a   b  ".toList) "all" = "a b".toList := by
  have hbase : ∀ s : Str, trim_spaces s "all" = collapseWs (pyStrip s) := by
    intro s
    simp [trim_spaces]
  refine ⟨hbase, ?_, ?_⟩
  · intro s
    rw [hbase s, collapseWs_pyStrip]
  · decide

/-! ## Punctuation lemmas for C4 -/

/-- A character outside the source palette of a translation table is not
remapped. -/
theorem transGet_not_mem (src dst : Str) (c : Char) (h : c ∉ src) :
    transGet (maketrans src dst) c = none := by
  have hfind : (List.find? (fun p => p.1 == c) ((src.zip dst).reverse)) = none := by
    rw [List.find?_eq_none]
    rintro ⟨a, b⟩ hp
    simp only [beq_iff_eq]
    rintro rfl
    exact h (List.of_mem_zip (List.mem_reverse.mp hp)).1
  simp [transGet, maketrans, hfind]

/-- One character of the Chinese palette other than the two curly single
quotes, or a character in neither palette, survives the to-English then
to-Chinese round trip. -/
theorem roundtrip_char (c : Char)
    (h : (c ∈ chinese_punctuation ∧ c ≠ '‘' ∧ c ≠ '’') ∨
        (c ∉ chinese_punctuation ∧ c ∉ english_punctuation)) :
    (transGet (maketrans english_punctuation chinese_punctuation)
        ((transGet (maketrans chinese_punctuation english_punctuation) c).getD c)).getD
      ((transGet (maketrans chinese_punctuation english_punctuation) c).getD c) = c := by
  rcases h with ⟨hc, h1, h2⟩ | ⟨hc, he⟩
  · simp only [chinese_punctuation, List.mem_cons, List.not_mem_nil, or_false] at hc
    rcases hc with rfl|rfl|rfl|rfl|rfl|rfl|rfl|rfl|rfl|rfl|rfl|rfl|rfl|rfl|rfl|rfl|rfl
    all_goals first | decide | (exact absurd rfl h1) | (exact absurd rfl h2)
  · rw [transGet_not_mem _ _ _ hc]
    simp only [Option.getD_none]
    rw [transGet_not_mem _ _ _ he]
    rfl

/-- Round trip of the two translation tables over admissible strings. -/
theorem pyTranslate_roundtrip (s : Str)
    (h : ∀ c ∈ s, (c ∈ chinese_punctuation ∧ c ≠ '‘' ∧ c ≠ '’') ∨
        (c ∉ chinese_punctuation ∧ c ∉ english_punctuation)) :
    pyTranslate (maketrans english_punctuation chinese_punctuation)
      (pyTranslate (maketrans chinese_punctuation english_punctuation) s) = s := by
  induction s with
  | nil => rfl
  | cons c cs ih =>
    have h1 := roundtrip_char c (h c (List.mem_cons_self _ _))
    have h2 := ih (fun y hy => h y (List.mem_cons_of_mem _ hy))
    simp only [pyTranslate, List.map_cons] at h2 ⊢
    rw [h2, h1]

/-- C4 counterexample: the curly single quote is in the Chinese palette, yet
the to-English direction sends it to the ASCII double quote (the palette
pairs curly single quotes with the double quote because the literal holds the
ASCII double quote at the later duplicated indices), and the to-Chinese
direction maps the double quote back to itself, not to the curly quote. -/
theorem claim_C4_counterexample :
    convert_punctuation (convert_punctuation ['‘'] true) false = ['"'] ∧
    (['"'] : Str) ≠ ['‘'] := by
  exact ⟨by decide, by decide⟩

/-- C4 amended: the to-English then to-Chinese round trip is exact for every
string over the Chinese palette minus the two curly single quotes, together
with characters belonging to neither palette. -/
theorem claim_C4 (s : Str)
    (h : ∀ c ∈ s, (c ∈ chinese_punctuation ∧ c ≠ '‘' ∧ c ≠ '’') ∨
        (c ∉ chinese_punctuation ∧ c ∉ english_punctuation)) :
    convert_punctuation (convert_punctuation s true) false = s := by
  have := pyTranslate_roundtrip s h
  simpa [convert_punctuation] using this

/-- Witness for C4: a concrete admissible string round-trips. -/
theorem claim_C4_witness :
    convert_punctuation (convert_punctuation ['，', 'a', '。', '"'] true) false =
      ['，', 'a', '。', '"'] := by
  exact claim_C4 ['，', 'a', '。', '"'] (by decide)

/-! ## Bracket-removal lemmas for C8 -/

/-- Unfolding subPair on the empty string. -/
theorem subPair_nil (o c : Char) : subPair o c [] = [] := by
  simp [subPair]

/-- Unfolding subPair when a shortest match starts at the head. -/
theorem subPair_cons_some (o c x : Char) (xs rest : Str) (hx : x = o)
    (h : findClose c xs = some rest) : subPair o c (x :: xs) = subPair o c rest := by
  simp only [subPair, hx, if_true, if_pos]
  split
  · rename_i r hr
    rw [h] at hr
    injection hr with hr2
    rw [hr2]
  · rename_i hr
    rw [h] at hr
    exact Option.noConfusion hr

/-- Unfolding subPair when the head is an open bracket with no reachable
close. -/
theorem subPair_cons_none (o c x : Char) (xs : Str) (hx : x = o)
    (h : findClose c xs = none) : subPair o c (x :: xs) = x :: subPair o c xs := by
  simp only [subPair, hx, if_true, if_pos]
  split
  · rename_i r hr
    rw [h] at hr
    exact Option.noConfusion hr
  · rfl

/-- Unfolding subPair on a head that is not the open bracket. -/
theorem subPair_cons_ne (o c x : Char) (xs : Str) (hx : x ≠ o) :
    subPair o c (x :: xs) = x :: subPair o c xs := by
  simp [subPair, hx]

/-- A successful close scan splits the string after a newline-free run. -/
theorem findClose_some {c : Char} : ∀ {xs rest : Str}, findClose c xs = some rest →
    ∃ p, xs = p ++ c :: rest ∧ NlFree p := by
  intro xs
  induction xs with
  | nil => intro rest h; simp [findClose] at h
  | cons x xs ih =>
    intro rest h
    simp only [findClose] at h
    split at h
    · rename_i hx
      cases h
      exact ⟨[], by rw [hx]; rfl, fun y hy => absurd hy (List.not_mem_nil y)⟩
    · split at h
      · exact Option.noConfusion h
      · rename_i hx hn
        obtain ⟨p, hp, hpf⟩ := ih h
        refine ⟨x :: p, by rw [hp]; rfl, fun y hy => ?_⟩
        rcases List.mem_cons.mp hy with rfl | hy'
        · exact hn
        · exact hpf y hy'

/-- A failed close scan means the close is not reachable through
newline-free text. -/
theorem findClose_none {c : Char} : ∀ {xs : Str}, findClose c xs = none → ¬ Reach c xs := by
  intro xs
  induction xs with
  | nil =>
    rintro _ ⟨m, z, hmz, _⟩
    cases m <;> simp at hmz
  | cons x xs ih =>
    intro h hr
    simp only [findClose] at h
    obtain ⟨m, z, hmz, hmf⟩ := hr
    split at h
    · exact Option.noConfusion h
    · split at h
      · rename_i hx hn
        cases m with
        | nil =>
          simp only [List.nil_append, List.cons.injEq] at hmz
          exact hx hmz.1
        | cons y m' =>
          simp only [List.cons_append, List.cons.injEq] at hmz
          exact hmf y (List.mem_cons_self _ _) (by rw [← hmz.1, hn])
      · rename_i hx hn
        cases m with
        | nil =>
          simp only [List.nil_append, List.cons.injEq] at hmz
          exact hx hmz.1
        | cons y m' =>
          simp only [List.cons_append, List.cons.injEq] at hmz
          exact ih h ⟨m', z, hmz.2, fun w hw => hmf w (List.mem_cons_of_mem _ hw)⟩

/-- Deleting nothing is a deletion. -/
theorem Del.rfl : ∀ s : Str, Del s s := by
  intro s
  induction s with
  | nil => exact Del.nil
  | cons x xs ih => exact Del.keep x ih

/-- Newline-free reachability of the close survives re-inserting deleted
newline-free chunks. -/
theorem Del.reach {c : Char} : ∀ {s t : Str}, Del s t → Reach c t → Reach c s := by
  intro s t hdel
  induction hdel with
  | nil =>
    rintro ⟨m, z, hmz, _⟩
    cases m <;> simp at hmz
  | keep x hst ih =>
    rename_i s₀ t₀
    rintro ⟨m, z, hmz, hmf⟩
    cases m with
    | nil =>
      simp only [List.nil_append, List.cons.injEq] at hmz
      exact ⟨[], s₀, by simp [hmz.1], fun y hy => absurd hy (List.not_mem_nil y)⟩
    | cons y m' =>
      simp only [List.cons_append, List.cons.injEq] at hmz
      obtain ⟨m'', z'', hs, hf⟩ := ih ⟨m', z, hmz.2, fun w hw => hmf w (List.mem_cons_of_mem _ hw)⟩
      refine ⟨x :: m'', z'', by simp [hs], fun w hw => ?_⟩
      rcases List.mem_cons.mp hw with rfl | hw'
      · rw [hmz.1]
        exact hmf y (List.mem_cons_self _ _)
      · exact hf w hw'
  | del d hdf hst ih =>
    intro hr
    obtain ⟨m'', z'', hs, hf⟩ := ih hr
    refine ⟨d ++ m'', z'', by simp [hs], fun w hw => ?_⟩
    rcases List.mem_append.mp hw with hw' | hw'
    · exact hdf w hw'
    · exact hf w hw'

/-- A regex match in the deletion image lifts to a match of the source
string: deleted chunks hold no newline, so the newline-free gap stays
newline-free when they are re-inserted. -/
theorem Del.hasMatch {o c : Char} : ∀ {s t : Str}, Del s t → HasMatch o c t → HasMatch o c s := by
  intro s t hdel
  induction hdel with
  | nil =>
    rintro ⟨a, m, z, heq, _⟩
    cases a <;> simp at heq
  | keep x hst ih =>
    rename_i s₀ t₀
    rintro ⟨a, m, z, heq, hmf⟩
    cases a with
    | nil =>
      simp only [List.nil_append, List.cons.injEq] at heq
      obtain ⟨m', z', hs, hf⟩ := Del.reach hst ⟨m, z, heq.2, hmf⟩
      exact ⟨[], m', z', by rw [heq.1, hs]; rfl, hf⟩
    | cons y a' =>
      simp only [List.cons_append, List.cons.injEq] at heq
      obtain ⟨a'', m'', z'', hs, hf⟩ := ih ⟨a', m, z, heq.2, hmf⟩
      exact ⟨x :: a'', m'', z'', by simp [hs], hf⟩
  | del d hdf hst ih =>
    intro hm
    obtain ⟨a'', m'', z'', hs, hf⟩ := ih hm
    exact ⟨d ++ a'', m'', z'', by simp [hs], hf⟩

/-- One subPair pass of a newline-free bracket pair deletes only newline-free
chunks. -/
theorem del_subPair (o c : Char) (ho : o ≠ '\n') (hc : c ≠ '\n') (s : Str) :
    Del s (subPair o c s) := by
  suffices key : ∀ (n : Nat) (t : Str), t.length ≤ n → Del t (subPair o c t) by
    exact key s.length s le_rfl
  intro n
  induction n with
  | zero =>
    intro t ht
    have : t = [] := List.length_eq_zero.mp (Nat.le_zero.mp ht)
    rw [this, subPair_nil]
    exact Del.nil
  | succ n ih =>
    intro t ht
    cases t with
    | nil =>
      rw [subPair_nil]
      exact Del.nil
    | cons x xs =>
      simp only [List.length_cons] at ht
      by_cases hx : x = o
      · cases hfc : findClose c xs with
        | some rest =>
          rw [subPair_cons_some o c x xs rest hx hfc]
          obtain ⟨p, hp, hpf⟩ := findClose_some hfc
          have hsplit : x :: xs = (x :: (p ++ [c])) ++ rest := by
            rw [hp]
            simp
          rw [hsplit]
          apply Del.del
          · intro y hy
            rcases List.mem_cons.mp hy with rfl | hy'
            · rw [hx]; exact ho
            · rcases List.mem_append.mp hy' with hy'' | hy''
              · exact hpf y hy''
              · rw [List.mem_singleton.mp hy'']
                exact hc
          · apply ih
            have hlen := congrArg List.length hp
            simp only [List.length_append, List.length_cons] at hlen
            omega
        | none =>
          rw [subPair_cons_none o c x xs hx hfc]
          exact Del.keep x (ih xs (by omega))
      · rw [subPair_cons_ne o c x xs hx]
        exact Del.keep x (ih xs (by omega))

/-- The empty string has no match. -/
theorem not_hasMatch_nil (o c : Char) : ¬ HasMatch o c [] := by
  rintro ⟨a, m, z, heq, _⟩
  cases a <;> simp at heq

/-- A match extends along a cons cell. -/
theorem hasMatch_cons {o c : Char} (y : Char) {t : Str} :
    HasMatch o c t → HasMatch o c (y :: t) := by
  rintro ⟨a, m, z, heq, hf⟩
  exact ⟨y :: a, m, z, by rw [heq]; rfl, hf⟩

/-- After one subPair pass of a newline-free pair, no match of that pair
remains. -/
theorem subPair_no_match (o c : Char) (ho : o ≠ '\n') (hc : c ≠ '\n') (s : Str) :
    ¬ HasMatch o c (subPair o c s) := by
  suffices key : ∀ (n : Nat) (t : Str), t.length ≤ n → ¬ HasMatch o c (subPair o c t) by
    exact key s.length s le_rfl
  intro n
  induction n with
  | zero =>
    intro t ht
    have : t = [] := List.length_eq_zero.mp (Nat.le_zero.mp ht)
    rw [this, subPair_nil]
    exact not_hasMatch_nil o c
  | succ n ih =>
    intro t ht
    cases t with
    | nil =>
      rw [subPair_nil]
      exact not_hasMatch_nil o c
    | cons x xs =>
      simp only [List.length_cons] at ht
      by_cases hx : x = o
      · cases hfc : findClose c xs with
        | some rest =>
          rw [subPair_cons_some o c x xs rest hx hfc]
          apply ih
          obtain ⟨p, hp, _⟩ := findClose_some hfc
          have hlen := congrArg List.length hp
          simp only [List.length_append, List.length_cons] at hlen
          omega
        | none =>
          rw [subPair_cons_none o c x xs hx hfc]
          rintro ⟨a, m, z, heq, hmf⟩
          cases a with
          | nil =>
            simp only [List.nil_append, List.cons.injEq] at heq
            have hreach : Reach c (subPair o c xs) := ⟨m, z, heq.2, hmf⟩
            exact findClose_none hfc (Del.reach (del_subPair o c ho hc xs) hreach)
          | cons y a' =>
            simp only [List.cons_append, List.cons.injEq] at heq
            exact ih xs (by omega) ⟨a', m, z, heq.2, hmf⟩
      · rw [subPair_cons_ne o c x xs hx]
        rintro ⟨a, m, z, heq, hmf⟩
        cases a with
        | nil =>
          simp only [List.nil_append, List.cons.injEq] at heq
          exact hx heq.1
        | cons y a' =>
          simp only [List.cons_append, List.cons.injEq] at heq
          exact ih xs (by omega) ⟨a', m, z, heq.2, hmf⟩

/-- On a string without a match of the pair, one subPair pass is the
identity. -/
theorem no_match_subPair_id (o c : Char) : ∀ s : Str, ¬ HasMatch o c s → subPair o c s = s := by
  intro s
  induction s with
  | nil => intro _; rw [subPair_nil]
  | cons x xs ih =>
    intro h
    by_cases hx : x = o
    · cases hfc : findClose c xs with
      | some rest =>
        obtain ⟨p, hp, hpf⟩ := findClose_some hfc
        exact absurd ⟨[], p, rest, by rw [hp, hx]; rfl, hpf⟩ h
      | none =>
        rw [subPair_cons_none o c x xs hx hfc, ih (fun hm => h (hasMatch_cons x hm))]
    · rw [subPair_cons_ne o c x xs hx, ih (fun hm => h (hasMatch_cons x hm))]

/-- A bracketStep of a newline-free entry is a newline-free deletion. -/
theorem del_bracketStep (bp : Str) (h : NlFree bp) (s : Str) : Del s (bracketStep s bp) := by
  match bp with
  | [] => exact Del.rfl s
  | [_] => exact Del.rfl s
  | [a, b] => exact del_subPair a b (h a (by simp)) (h b (by simp)) s
  | _ :: _ :: _ :: _ => exact Del.rfl s

/-- A match of any pair in the image of the whole bracket fold lifts back to
the start of the fold, provided every entry is newline-free. -/
theorem hasMatch_foldl {o c : Char} : ∀ (l : List Str), (∀ bp ∈ l, NlFree bp) →
    ∀ s : Str, HasMatch o c (l.foldl bracketStep s) → HasMatch o c s := by
  intro l
  induction l with
  | nil => intro _ s h; exact h
  | cons bp rest ih =>
    intro hl s h
    have h1 := ih (fun b hb => hl b (List.mem_cons_of_mem _ hb)) (bracketStep s bp) h
    exact Del.hasMatch (del_bracketStep bp (hl bp (List.mem_cons_self _ _)) s) h1

/-- After the whole fold, no pair of the list has a match left. -/
theorem fold_all_no_match : ∀ (l : List Str), (∀ bp ∈ l, NlFree bp) →
    ∀ (s : Str) (o c : Char), [o, c] ∈ l → ¬ HasMatch o c (l.foldl bracketStep s) := by
  intro l
  induction l with
  | nil =>
    intro _ s o c hmem
    exact absurd hmem (List.not_mem_nil _)
  | cons bp rest ih =>
    intro hl s o c hmem
    rcases List.mem_cons.mp hmem with heq | hmem'
    · subst heq
      have hnl : NlFree [o, c] := hl _ (List.mem_cons_self _ _)
      have ho : o ≠ '\n' := hnl o (by simp)
      have hc : c ≠ '\n' := hnl c (by simp)
      have hbase : ¬ HasMatch o c (bracketStep s [o, c]) := by
        simpa [bracketStep] using subPair_no_match o c ho hc s
      intro habs
      rw [List.foldl_cons] at habs
      exact hbase (hasMatch_foldl rest (fun b hb => hl b (List.mem_cons_of_mem _ hb))
        (bracketStep s [o, c]) habs)
    · exact ih (fun b hb => hl b (List.mem_cons_of_mem _ hb)) (bracketStep s bp) o c hmem'

/-- A fold over pairs none of which matches the string is the identity. -/
theorem fold_id : ∀ (l : List Str) (s : Str),
    (∀ o c : Char, [o, c] ∈ l → ¬ HasMatch o c s) → l.foldl bracketStep s = s := by
  intro l
  induction l with
  | nil => intro s _; rfl
  | cons bp rest ih =>
    intro s h
    have hstep : bracketStep s bp = s := by
      match bp with
      | [] => rfl
      | [_] => rfl
      | [a, b] => exact no_match_subPair_id a b s (h a b (List.mem_cons_self _ _))
      | _ :: _ :: _ :: _ => rfl
    rw [List.foldl_cons, hstep]
    exact ih s (fun o c hmem => h o c (List.mem_cons_of_mem _ hmem))

/-- C8 counterexample: with the bracket list containing the pair newline-X, a
first full pass deletes the newline and thereby creates a fresh match for the
earlier pair, so the second pass is not the identity. -/
theorem claim_C8_counterexample :
    remove_brackets_content
        (remove_brackets_content ['(', 'a', '\n', 'X', 'b', ')'] [['(', ')'], ['\n', 'X']])
        [['(', ')'], ['\n', 'X']] ≠
      remove_brackets_content ['(', 'a', '\n', 'X', 'b', ')'] [['(', ')'], ['\n', 'X']] := by
  have h1 : remove_brackets_content ['(', 'a', '\n', 'X', 'b', ')'] [['(', ')'], ['\n', 'X']] =
      ['(', 'a', 'b', ')'] := by
    simp [remove_brackets_content, bracketStep, subPair, findClose]
  have h2 : remove_brackets_content ['(', 'a', 'b', ')'] [['(', ')'], ['\n', 'X']] = [] := by
    simp [remove_brackets_content, bracketStep, subPair, findClose]
  rw [h1, h2]
  simp

/-- C8 amended: REMOVE_BRACKETS is idempotent for every bracket-pair list in
which no pair contains the newline character: the second application of the
whole pass returns its input unchanged. -/
theorem claim_C8 (text : Str) (brackets : List Str)
    (h : ∀ bp ∈ brackets, ∀ y ∈ bp, y ≠ '\n') :
    remove_brackets_content (remove_brackets_content text brackets) brackets =
      remove_brackets_content text brackets := by
  unfold remove_brackets_content
  apply fold_id
  intro o c hmem
  exact fold_all_no_match brackets h text o c hmem

/-- Witness for C8: idempotence on a concrete newline-free run. -/
theorem claim_C8_witness :
    remove_brackets_content (remove_brackets_content ['(', 'a', ')', 'b'] [['(', ')']])
        [['(', ')']] =
      remove_brackets_content ['(', 'a', ')', 'b'] [['(', ')']] := by
  exact claim_C8 ['(', 'a', ')', 'b'] [['(', ')']] (by decide)

/-- Witness for C10: the two engines agree on a concrete run. -/
theorem claim_C10_witness :
    preview_changes [{ op_type := .INSERT_TEXT_SUFFIX, target_field := "T", text := ['!'] }]
        [("T", ['a'])] ["T"] =
      preview_changes_tp [{ op_type := .INSERT_TEXT_SUFFIX, target_field := "T", text := ['!'] }]
        [("T", ['a'])] ["T"] := by
  exact claim_C10 [{ op_type := .INSERT_TEXT_SUFFIX, target_field := "T", text := ['!'] }]
    [("T", ['a'])] ["T"] (by decide)

